import Mathlib

/-
Verification of the structural segmentation engine of the cppembedder
repository (src/chunking.rs and its legacy duplicate src/main.rs).

The development shallowly embeds the chunk-extraction, persistence,
transport-framing and session-sequencing logic of the Rust source as
executable Lean functions and proves the specification's claims about
them.  Byte streams are modelled as lists of characters (`List Char`);
byte counts use the UTF-8 size of each character, matching Rust's
`str::len`.  Rust's `Option`/`Result` returns and panics are modelled
with `Option`/`Except`.
-/

namespace Chunking

/-- LSP position: `struct Position { line, _character }` in src/chunking.rs.
Rust uses `usize`; the source never performs arithmetic that could
overflow a 64-bit counter on real files, so `Nat` is used. -/
structure Position where
  line : Nat
  character : Nat
deriving DecidableEq, Repr

/-- LSP range: `struct Range { start, end }` in src/chunking.rs.
The source field `end` is a Lean keyword, hence the quoted name. -/
structure SRange where
  start : Position
  «end» : Position
deriving DecidableEq, Repr

/-- Hierarchical document symbol: `struct Symbol { name, kind, range,
children }` in src/chunking.rs (`children` defaults to empty). -/
inductive Symbol : Type where
  | mk (name : String) (kind : Nat) (range : SRange) (children : List Symbol)
deriving Repr

def Symbol.name : Symbol → String
  | .mk n _ _ _ => n

def Symbol.kind : Symbol → Nat
  | .mk _ k _ _ => k

def Symbol.range : Symbol → SRange
  | .mk _ _ r _ => r

def Symbol.children : Symbol → List Symbol
  | .mk _ _ _ c => c

/-- `struct CodeChunk` in src/chunking.rs. -/
structure CodeChunk where
  name : String
  content : String
  start_line : Nat
  end_line : Nat
  kind : String
  parent : Option String
deriving DecidableEq, Repr

/-- The `match symbol.kind` arms of `process_symbols` in src/chunking.rs:
the recognized LSP symbol kinds (FUNCTION=12, METHOD=6, CLASS=5,
NAMESPACE=3) map to chunk-kind strings; everything else is `continue`d. -/
def kindName : Nat → Option String
  | 12 => some "function"
  | 6 => some "method"
  | 5 => some "class"
  | 3 => some "namespace"
  | _ => none

/-- `lines[start_line..=end_line].join("\n")` of `process_symbols`. -/
def sliceContent (lines : List String) (s e : Nat) : String :=
  String.intercalate "\n" ((lines.drop s).take (e + 1 - s))

/-- The chunk-name computation of `process_symbols`:
`format!("{}::{}", parent_name, symbol.name)` when a parent is in scope,
else `symbol.name`. -/
def qualName (parent : Option String) (nm : String) : String :=
  match parent with
  | some p => p ++ "::" ++ nm
  | none => nm

/-- The recursive helper `process_symbols` of `extract_chunks` in
src/chunking.rs (lines 123-170): pre-order walk of the symbol list.
An unrecognized kind or an invalid range (`start_line >= end_line ||
end_line >= lines.len()`) `continue`s to the next symbol, visiting
neither the symbol nor its children; otherwise a chunk is pushed and the
children are processed with the new qualified name as parent.  The Rust
code mutates an accumulator; appending the recursive results in the same
visit order yields the identical list. -/
def processSymbols (symbols : List Symbol) (lines : List String) (parent : Option String) :
    List CodeChunk :=
  match symbols with
  | [] => []
  | Symbol.mk nm kd rg ch :: rest =>
    match kindName kd with
    | none => processSymbols rest lines parent
    | some k =>
      if rg.start.line >= rg.«end».line || rg.«end».line >= lines.length then
        processSymbols rest lines parent
      else
        { name := qualName parent nm, content := sliceContent lines rg.start.line rg.«end».line,
          start_line := rg.start.line, end_line := rg.«end».line,
          kind := k, parent := parent }
          :: (processSymbols ch lines (some (qualName parent nm))
              ++ processSymbols rest lines parent)

/-- One element of Rust's `str::split_inclusive('\n')`: splits a character
list into sublists, each retaining its terminating newline; an empty
input yields no sublists. -/
def splitKeepNl : List Char → List (List Char)
  | [] => []
  | c :: rest =>
    if c = '\n' then ['\n'] :: splitKeepNl rest
    else
      match splitKeepNl rest with
      | [] => [[c]]
      | p :: ps => (c :: p) :: ps

/-- The per-line map of Rust's `str::lines`: strip a trailing `'\n'`, and
then a trailing `'\r'` only if the `'\n'` was present. -/
def stripLineEnd (l : List Char) : List Char :=
  match l.getLast? with
  | some nl =>
    if nl = '\n' then
      let l' := l.dropLast
      match l'.getLast? with
      | some cr => if cr = '\r' then l'.dropLast else l'
      | none => l'
    else l
  | none => l

/-- Rust's `file_content.lines().collect::<Vec<&str>>()` used by
`extract_chunks`. -/
def rustLines (s : String) : List String :=
  (splitKeepNl s.data).map (fun l => String.mk (stripLineEnd l))

/-- `Chunker::extract_chunks` in src/chunking.rs (lines 113-172): split
the file content into lines and flatten the symbol tree.  The Rust
function returns `Ok` unconditionally. -/
def extract_chunks (file_content : String) (symbols : List Symbol) : List CodeChunk :=
  processSymbols symbols (rustLines file_content) none

/-- Modelled from the claim's words for C1 (spec §3/§8 "pre-order
traversal of only the recognized-kind subtrees reachable without passing
through an unrecognized-kind node"): the symbols a pre-order walk visits
when only an unrecognized kind prunes a subtree.  This is the
specification-side definition that the extractor is compared against;
it deliberately ignores range validity, exactly as the claim's sentence
does. -/
def reachableRecognized : List Symbol → List Symbol
  | [] => []
  | Symbol.mk nm kd rg ch :: rest =>
    match kindName kd with
    | none => reachableRecognized rest
    | some _ =>
      Symbol.mk nm kd rg ch :: (reachableRecognized ch ++ reachableRecognized rest)

/-- Projection of an emitted chunk used to compare the extractor's output
with the specification-side traversal. -/
def chunkProj (c : CodeChunk) : Option String × Nat × Nat :=
  (some c.kind, c.start_line, c.end_line)

/-- Projection of a visited symbol used to compare the extractor's output
with the specification-side traversal. -/
def symProj (s : Symbol) : Option String × Nat × Nat :=
  (kindName s.kind, s.range.start.line, s.range.«end».line)

/-- A symbol's range is valid for a file of `n` lines when
`start_line < end_line` and `end_line < n` (spec §3 invariants). -/
def rangeValid (n : Nat) (s : Symbol) : Prop :=
  s.range.start.line < s.range.«end».line ∧ s.range.«end».line < n

instance (n : Nat) (s : Symbol) : Decidable (rangeValid n s) := by
  unfold rangeValid; infer_instance

/-- `s.replace("::", "_doublecolon_")` of `sanitize_name`: Rust's
leftmost non-overlapping replacement, specialized to this pattern.  The
pattern is ASCII, so character-level matching coincides with Rust's
byte-level matching on UTF-8 text. -/
def replaceDoubleColon : List Char → List Char
  | [] => []
  | ':' :: ':' :: rest => "_doublecolon_".data ++ replaceDoubleColon rest
  | c :: rest => c :: replaceDoubleColon rest

/-- Rust's `str::replace` for a single-character pattern, as used for
the `<`, `>` and `/` replacements of `sanitize_name`. -/
def replaceChar (target : Char) (rep : List Char) : List Char → List Char
  | [] => []
  | c :: rest => (if c = target then rep else [c]) ++ replaceChar target rep rest

/-- The four replacements of `sanitize_name` in src/chunking.rs
(lines 57-65), applied in source order. -/
def sanitizeChars (cs : List Char) : List Char :=
  replaceChar '/' "_slash_".data
    (replaceChar '>' "_greater_".data
      (replaceChar '<' "_less_".data
        (replaceDoubleColon cs)))

/-- Rust's `String::truncate(n)`: keep the first `n` bytes.  A no-op when
the string is at most `n` bytes long; PANICS (modelled as `none`) when
byte position `n` falls strictly inside a multi-byte character. -/
def truncateBytes : List Char → Nat → Option (List Char)
  | [], _ => some []
  | _ :: _, 0 => some []
  | c :: rest, n + 1 =>
    if c.utf8Size ≤ n + 1 then
      (truncateBytes rest (n + 1 - c.utf8Size)).map (fun l => c :: l)
    else
      none

/-- `sanitize_name` in src/chunking.rs (lines 57-65): the four
replacements followed by `r.truncate(200)`.  `none` models the panic of
`String::truncate` on a non-character-boundary. -/
def sanitize_name (s : String) : Option String :=
  (truncateBytes (sanitizeChars s.data) 200).map String.mk

/-- The character for one decimal digit. -/
def digitChar (d : Nat) : Char :=
  Char.ofNat (48 + d)

/-- Digit-extraction loop for `natChars`, with explicit fuel so that the
definition is structurally recursive (the fuel is always sufficient
because `n / 10 < n` for positive `n`). -/
def natCharsAux : Nat → Nat → List Char → List Char
  | 0, _, acc => acc
  | fuel + 1, n, acc =>
    if n = 0 then acc else natCharsAux fuel (n / 10) (digitChar (n % 10) :: acc)

/-- The decimal digit characters of a natural number, most significant
first, as produced by Rust's `Display for usize`. -/
def natChars (n : Nat) : List Char :=
  if n = 0 then ['0'] else natCharsAux n n []

/-- Rust's `format!("{:03}", n)`: decimal digits left-padded with zeros
to a minimum width of three. -/
def zeroPad3 (n : Nat) : List Char :=
  let ds := natChars n
  List.replicate (3 - ds.length) '0' ++ ds

/-- The chunk filename built by `write_chunks` in src/chunking.rs
(lines 205-213): `format!("{:03}_{}_{}_{}.cpp", i + 1, sanitized_name,
chunk.kind, chunk.start_line + 1)`.  The extension is the literal
`.cpp` of the format string.  `i` is the 0-based index of the chunk. -/
def chunkFilename (i : Nat) (sanitizedName : String) (c : CodeChunk) : String :=
  String.mk (zeroPad3 (i + 1)) ++ "_" ++ sanitizedName ++ "_" ++ c.kind ++ "_"
    ++ String.mk (natChars (c.start_line + 1)) ++ ".cpp"

/-- The `(filename, content)` pairs of the chunk files written by the
loop of `write_chunks`, starting at 0-based index `i`; `none` when
`sanitize_name` panics on some chunk's name. -/
def chunkFiles (i : Nat) : List CodeChunk → Option (List (String × String))
  | [] => some []
  | c :: cs =>
    match sanitize_name c.name with
    | none => none
    | some sn =>
      (chunkFiles (i + 1) cs).map (fun r => (chunkFilename i sn c, c.content) :: r)

/-- The `_index.txt` record that `write_chunks` appends for the chunk at
0-based index `i`: filename, name, kind, 1-based inclusive line range,
optional parent, and the `---` delimiter. -/
def indexRecord (i : Nat) (sn : String) (c : CodeChunk) : String :=
  "Chunk: " ++ chunkFilename i sn c ++ "\n"
    ++ "  Name: " ++ c.name ++ "\n"
    ++ "  Kind: " ++ c.kind ++ "\n"
    ++ "  Lines: " ++ String.mk (natChars (c.start_line + 1)) ++ "-"
    ++ String.mk (natChars (c.end_line + 1)) ++ "\n"
    ++ (match c.parent with
        | some p => "  Parent: " ++ p ++ "\n"
        | none => "")
    ++ "---\n"

/-- The per-chunk `_index.txt` records from 0-based index `i` on. -/
def indexRecords (i : Nat) : List CodeChunk → Option String
  | [] => some ""
  | c :: cs =>
    match sanitize_name c.name with
    | none => none
    | some sn =>
      (indexRecords (i + 1) cs).map (fun r => indexRecord i sn c ++ r)

/-- The on-disk output of `write_chunks` for one source file: the
`_index.txt` manifest text and the chunk files in write order. -/
structure WriteOutput where
  indexContent : String
  files : List (String × String)
deriving DecidableEq, Repr

/-- `Chunker::write_chunks` in src/chunking.rs (lines 174-251), as the
pure function from the source path's display string and the chunk list
to what it writes: the manifest header (source path, chunk count, `---`)
followed by one record per chunk, and one `(filename, content)` file per
chunk.  `none` models the `sanitize_name` panic; filesystem errors are
outside the model. -/
def write_chunks (sourcePath : String) (chunks : List CodeChunk) : Option WriteOutput :=
  match indexRecords 0 chunks, chunkFiles 0 chunks with
  | some recs, some files =>
    some { indexContent :=
             "Source file: " ++ sourcePath ++ "\n"
               ++ "Number of chunks: " ++ String.mk (natChars chunks.length) ++ "\n"
               ++ "---\n" ++ recs,
           files := files }
  | _, _ => none

/-- Rust's `str::trim`: whitespace stripped from both ends (the
trailing end first; trimming the two ends commutes). -/
def trimChars (cs : List Char) : List Char :=
  ((cs.reverse.dropWhile Char.isWhitespace).reverse).dropWhile Char.isWhitespace

/-- `line.starts_with("Content-Length:")` in `read_lsp_response`. -/
def isCLHeader (line : List Char) : Bool :=
  "Content-Length:".data.isPrefixOf line

/-- `line.split(':').nth(1)` of `read_lsp_response`, under the guarantee
that `line` starts with `Content-Length:` (whose only colon is its last
character, at index 14): the characters strictly between the first and
second colon. -/
def clValue (line : List Char) : List Char :=
  (line.drop 15).takeWhile (fun c => c ≠ ':')

/-- Rust's `str::parse::<usize>` on an already-trimmed digit string: an
optional leading `+` followed by at least one decimal digit.  Arithmetic
is on `Nat`, so the `usize` overflow failure of Rust is not modelled; no
claim depends on lengths near `2^64`. -/
def parseNat (cs : List Char) : Option Nat :=
  let ds := if cs.head? = some '+' then cs.tail else cs
  if ds ≠ [] ∧ ds.all Char.isDigit then
    some (ds.foldl (fun a c => 10 * a + (c.toNat - 48)) 0)
  else
    none

/-- Failure cases of `read_lsp_response` in src/chunking.rs: no
`Content-Length` header before the blank line, an unparsable
`Content-Length` value, or a stream too short for the announced body
(the JSON decoding of the body happens after framing and is the external
serde library's job, outside this model). -/
inductive LspReadError where
  | noContentLength
  | badLengthValue
  | bodyTruncated
deriving DecidableEq, Repr

/-- The header loop of `read_lsp_response` (src/chunking.rs lines
393-420), operating on the stream pre-split at newlines (each element is
one `read_line` result): trim each line, stop at the first blank line
(end-of-stream reads yield an empty line, so exhaustion also stops),
remember the last parsed `Content-Length` value, and fail on an
unparsable one. -/
def readHeaderLines :
    List (List Char) → Option Nat → Except LspReadError (Option Nat × List (List Char))
  | [], acc => .ok (acc, [])
  | l :: rest, acc =>
    let line := trimChars l
    if line = [] then .ok (acc, rest)
    else if isCLHeader line then
      match parseNat (trimChars (clValue line)) with
      | some n => readHeaderLines rest (some n)
      | none => .error .badLengthValue
    else
      readHeaderLines rest acc

/-- Rust's `read_exact` on a buffer of `n` bytes, over a character
stream: take characters until exactly `n` UTF-8 bytes are consumed.
`none` when the stream ends early or byte `n` falls inside a character
(the latter cannot happen for streams produced by `send_lsp_request`,
whose length prefix counts whole characters' bytes). -/
def readExact (s : List Char) (n : Nat) : Option (List Char × List Char) :=
  if n = 0 then some ([], s)
  else
    match s with
    | [] => none
    | c :: rest =>
      if c.utf8Size ≤ n then
        (readExact rest (n - c.utf8Size)).map (fun p => (c :: p.1, p.2))
      else
        none

/-- `Chunker::read_lsp_response` in src/chunking.rs (lines 386-447):
read header lines until a blank line, require a `Content-Length`, then
read exactly that many bytes as the body.  Returns the body text and the
unconsumed stream. -/
def read_lsp_response (s : List Char) : Except LspReadError (String × List Char) :=
  match readHeaderLines (splitKeepNl s) none with
  | .error e => .error e
  | .ok (none, _) => .error .noContentLength
  | .ok (some n, restLines) =>
    match readExact restLines.flatten n with
    | none => .error .bodyTruncated
    | some (body, rest) => .ok (String.mk body, rest)

/-- The trimmed header lines preceding the blank terminating line (or
the end of the stream), as `read_lsp_response`'s loop sees them. -/
def headerSection : List (List Char) → List (List Char)
  | [] => []
  | l :: rest =>
    let line := trimChars l
    if line = [] then [] else line :: headerSection rest

/-- `Chunker::send_lsp_request` in src/chunking.rs (lines 355-384), for
a message whose serde serialization is `body`: writes
`Content-Length: <byte length>`, a newline, a blank line, then the raw
body (`writeln!` emits a bare `\n`).  `String.utf8ByteSize` matches
Rust's `str::len`. -/
def send_lsp_request (body : String) : List Char :=
  ("Content-Length: " ++ String.mk (natChars body.utf8ByteSize)).data
    ++ '\n' :: '\n' :: body.data

/-- An inbound LSP message as `read_document_symbols` inspects it:
`id` is `response.get("id").as_u64()` (absent for notifications), and
`result` holds the decoded `Vec<Symbol>` when a `result` field is
present and well-formed.  JSON decoding itself is the external serde
library's job. -/
structure LspMsg where
  id : Option Nat
  result : Option (List Symbol)

/-- `Chunker::read_document_symbols` in src/chunking.rs (lines 542-578):
keep reading responses, discarding every message that is not an `id: 2`
response with a present `result`, and decode the first matching one.
`none` models the propagated read error when the stream is exhausted.
Returns the remaining stream alongside the result. -/
def read_document_symbols : List LspMsg → Option (List Symbol × List LspMsg)
  | [] => none
  | m :: rest =>
    if m.id = some 2 then
      match m.result with
      | some syms => some (syms, rest)
      | none => read_document_symbols rest
    else
      read_document_symbols rest

/-- One observable transport action of the session: a framed send with
the request's identifier and method, or a blocking receive returning a
message with the given identifier. -/
inductive LspEvent where
  | send (id : Option Nat) (method : String)
  | recv (id : Option Nat)
deriving DecidableEq, Repr

/-- The receives performed by one `read_document_symbols` call: every
message up to and including the first `id: 2` response with a present
`result`.  Returns the remaining input, or `none` when the stream is
exhausted (a fatal read error in the source). -/
def readDocEvents : List LspMsg → List LspEvent × Option (List LspMsg)
  | [] => ([], none)
  | m :: rest =>
    if m.id = some 2 ∧ m.result.isSome then
      ([.recv m.id], some rest)
    else
      let p := readDocEvents rest
      (.recv m.id :: p.1, p.2)

/-- The transport actions of `Chunker::process_file` iterated over the
source files (src/chunking.rs lines 449-540): per file, a `didOpen`
notification, the `id: 2` `documentSymbol` request, then the receives of
`read_document_symbols`; a read failure aborts the whole run. -/
def processFilesEvents : List String → List LspMsg → List LspEvent × Option (List LspMsg)
  | [], input => ([], some input)
  | _ :: files, input =>
    let p := readDocEvents input
    let pre := LspEvent.send none "textDocument/didOpen"
      :: LspEvent.send (some 2) "textDocument/documentSymbol" :: p.1
    match p.2 with
    | none => (pre, none)
    | some input' =>
      let q := processFilesEvents files input'
      (pre ++ q.1, q.2)

/-- The transport actions of `Chunker::run` (src/chunking.rs lines
253-353) given the discovered files and the child's message stream: the
`id: 1` initialize request is sent, every file is processed, and on
success the `id: 9999` shutdown request and the exit notification
follow.  The source contains no receive between the initialize send and
the first per-file query. -/
def runTrace (files : List String) (input : List LspMsg) : List LspEvent :=
  let p := processFilesEvents files input
  LspEvent.send (some 1) "initialize"
    :: (p.1 ++ match p.2 with
        | some _ => [LspEvent.send (some 9999) "shutdown", LspEvent.send none "exit"]
        | none => [])

/-- The claim's temporal property for C2, as a scan over the event
trace: every `id: 2` `documentSymbol` send must be preceded by a receive
of an `id: 1` message.  The accumulator records whether such a receive
has happened. -/
def queryAfterInitResp : List LspEvent → Bool → Bool
  | [], _ => true
  | .recv i :: rest, seen => queryAfterInitResp rest (seen || (i == some 1))
  | .send i m :: rest, seen =>
    if i == some 2 && m == "textDocument/documentSymbol" then
      seen && queryAfterInitResp rest seen
    else
      queryAfterInitResp rest seen

/-- The code's actual ordering: no receive occurs before the first
`id: 2` `documentSymbol` send (or at all, when no file is processed). -/
def noRecvBeforeQuery : List LspEvent → Bool
  | [] => true
  | .recv _ :: _ => false
  | .send i m :: rest =>
    (i == some 2 && m == "textDocument/documentSymbol") || noRecvBeforeQuery rest

/-- Scan of a chunk sequence in output order, carrying the names of the
chunks already seen (most recent first, on top of an initial list):
checks that every chunk carrying a parent name was preceded by a chunk
of exactly that name. -/
def parentSeenScan : List String → List CodeChunk → Bool
  | _, [] => true
  | seen, c :: cs =>
    (match c.parent with
     | none => true
     | some p => seen.contains p)
    && parentSeenScan (c.name :: seen) cs

/-- The names already seen after scanning `xs` on top of `seen`. -/
def seenAfter (xs : List CodeChunk) (seen : List String) : List String :=
  xs.foldl (fun acc c => c.name :: acc) seen

/-- All symbol names occurring anywhere in a symbol tree. -/
def treeNames : List Symbol → List String
  | [] => []
  | Symbol.mk nm _ _ ch :: rest => nm :: (treeNames ch ++ treeNames rest)

/-- Every chunk emitted by `process_symbols` satisfies the §3 range
invariants `start_line < end_line` and `end_line < total lines`:
the guard at src/chunking.rs line 142 drops all other symbols. -/
def processSymbols_valid : ∀ (syms : List Symbol) (lines : List String)
    (parent : Option String) (c : CodeChunk), c ∈ processSymbols syms lines parent →
    c.start_line < c.end_line ∧ c.end_line < lines.length
  | [], _, _, _, h => by rw [processSymbols] at h; exact absurd h (List.not_mem_nil _)
  | Symbol.mk nm kd rg ch :: rest, lines, parent, c, h => by
    match hk : kindName kd with
    | none =>
      rw [processSymbols, hk] at h
      exact processSymbols_valid rest lines parent c h
    | some k =>
      rw [processSymbols, hk] at h
      dsimp only at h
      by_cases hv : rg.start.line ≥ rg.«end».line || rg.«end».line ≥ lines.length
      · rw [if_pos hv] at h
        exact processSymbols_valid rest lines parent c h
      · rw [if_neg hv] at h
        simp only [Bool.or_eq_true, decide_eq_true_eq, not_or, not_le] at hv
        rcases List.mem_cons.mp h with rfl | h1
        · exact ⟨hv.1, hv.2⟩
        · rcases List.mem_append.mp h1 with h2 | h2
          · exact processSymbols_valid ch lines _ c h2
          · exact processSymbols_valid rest lines parent c h2

/-- When every reachable recognized symbol has a valid range, the
extractor's output corresponds one-to-one, in order, with the pre-order
traversal of the recognized-kind subtrees reachable without passing
through an unrecognized-kind node. -/
def processSymbols_pre_order : ∀ (syms : List Symbol) (lines : List String)
    (parent : Option String),
    (∀ s ∈ reachableRecognized syms, rangeValid lines.length s) →
    (processSymbols syms lines parent).map chunkProj
      = (reachableRecognized syms).map symProj
  | [], _, _, _ => by rw [processSymbols, reachableRecognized]; rfl
  | Symbol.mk nm kd rg ch :: rest, lines, parent, hval => by
    match hk : kindName kd with
    | none =>
      rw [processSymbols, reachableRecognized, hk]
      dsimp only
      exact processSymbols_pre_order rest lines parent
        (fun s hs => hval s (by rw [reachableRecognized, hk]; exact hs))
    | some k =>
      have hmem : Symbol.mk nm kd rg ch ∈ reachableRecognized (Symbol.mk nm kd rg ch :: rest) := by
        rw [reachableRecognized, hk]
        exact List.mem_cons_self _ _
      have hv := hval _ hmem
      rw [rangeValid] at hv
      rw [processSymbols, reachableRecognized, hk]
      dsimp only
      rw [if_neg (by simp only [Symbol.range] at hv; simp [hv.1, hv.2])]
      have hch : ∀ s ∈ reachableRecognized ch, rangeValid lines.length s := by
        intro s hs
        refine hval s ?_
        rw [reachableRecognized, hk]
        exact List.mem_cons_of_mem _ (List.mem_append_left _ hs)
      have hrest : ∀ s ∈ reachableRecognized rest, rangeValid lines.length s := by
        intro s hs
        refine hval s ?_
        rw [reachableRecognized, hk]
        exact List.mem_cons_of_mem _ (List.mem_append_right _ hs)
      simp only [List.map_cons, List.map_append, chunkProj, symProj, Symbol.kind,
        Symbol.range, hk]
      rw [processSymbols_pre_order ch lines _ hch,
        processSymbols_pre_order rest lines parent hrest]

/-- Splitting a `parentSeenScan` over an append. -/
def parentSeenScan_append : ∀ (xs ys : List CodeChunk) (seen : List String),
    parentSeenScan seen (xs ++ ys)
      = (parentSeenScan seen xs && parentSeenScan (seenAfter xs seen) ys)
  | [], ys, seen => by
    simp only [List.nil_append, parentSeenScan, seenAfter, List.foldl_nil, Bool.true_and]
  | c :: xs, ys, seen => by
    simp only [List.cons_append, parentSeenScan, List.append_eq]
    rw [parentSeenScan_append xs ys (c.name :: seen)]
    simp only [seenAfter, List.foldl_cons, Bool.and_assoc]

/-- `parentSeenScan` is monotone in the seen-name list (with respect to
membership). -/
def parentSeenScan_mono : ∀ (cs : List CodeChunk) (seen seen' : List String),
    (∀ p, seen.contains p = true → seen'.contains p = true) →
    parentSeenScan seen cs = true → parentSeenScan seen' cs = true
  | [], _, _, _, _ => by rw [parentSeenScan]
  | c :: cs, seen, seen', hsub, h => by
    rw [parentSeenScan, Bool.and_eq_true] at h
    rw [parentSeenScan, Bool.and_eq_true]
    refine ⟨?_, parentSeenScan_mono cs (c.name :: seen) (c.name :: seen') ?_ h.2⟩
    · match hp : c.parent with
      | none => rfl
      | some p =>
        rw [hp] at h
        exact hsub p h.1
    · intro p hp
      simp only [List.contains_cons, Bool.or_eq_true] at hp ⊢
      rcases hp with hp | hp
      · exact Or.inl hp
      · exact Or.inr (hsub p hp)

/-- Everything contained in `seen` is still contained after pushing the
names of `xs`. -/
def seenAfter_contains : ∀ (xs : List CodeChunk) (seen : List String) (p : String),
    seen.contains p = true → (seenAfter xs seen).contains p = true
  | [], _, _, h => h
  | c :: xs, seen, p, h => by
    rw [seenAfter, List.foldl_cons]
    exact seenAfter_contains xs (c.name :: seen) p
      (by simp only [List.contains_cons, Bool.or_eq_true]; exact Or.inr h)

/-- The parent name carried by any chunk that `process_symbols` emits
was pushed as the name of an earlier chunk (or was available before the
call): the parent context of the recursion is always the name of the
chunk just emitted. -/
def processSymbols_parent_seen : ∀ (syms : List Symbol) (lines : List String)
    (parent : Option String) (seen : List String),
    (∀ p, parent = some p → seen.contains p = true) →
    parentSeenScan seen (processSymbols syms lines parent) = true
  | [], _, _, _, _ => by rw [processSymbols, parentSeenScan]
  | Symbol.mk nm kd rg ch :: rest, lines, parent, seen, hpar => by
    match hk : kindName kd with
    | none =>
      rw [processSymbols, hk]
      exact processSymbols_parent_seen rest lines parent seen hpar
    | some k =>
      rw [processSymbols, hk]
      dsimp only
      by_cases hv : rg.start.line ≥ rg.«end».line || rg.«end».line ≥ lines.length
      · rw [if_pos hv]
        exact processSymbols_parent_seen rest lines parent seen hpar
      · rw [if_neg hv]
        rw [parentSeenScan, Bool.and_eq_true]
        constructor
        · match hp : parent with
          | none => rfl
          | some p => exact hpar p rfl
        · rw [parentSeenScan_append, Bool.and_eq_true]
          constructor
          · refine processSymbols_parent_seen ch lines _ _ ?_
            intro p hp
            rw [Option.some.injEq] at hp
            simp only [List.contains_cons, ← hp]
            simp
          · refine parentSeenScan_mono _ seen _ ?_
              (processSymbols_parent_seen rest lines parent seen hpar)
            intro p hp
            exact seenAfter_contains _ _ p
              (by simp only [List.contains_cons, Bool.or_eq_true]; exact Or.inr hp)

/-- Every emitted chunk's name is the call's parent context joined with
a name occurring in the symbol tree. -/
def processSymbols_name_shape : ∀ (syms : List Symbol) (lines : List String)
    (parent : Option String) (c : CodeChunk), c ∈ processSymbols syms lines parent →
    ∃ nm, nm ∈ treeNames syms ∧ c.name = qualName c.parent nm
  | [], _, _, _, h => by rw [processSymbols] at h; exact absurd h (List.not_mem_nil _)
  | Symbol.mk nm kd rg ch :: rest, lines, parent, c, h => by
    match hk : kindName kd with
    | none =>
      rw [processSymbols, hk] at h
      obtain ⟨nm', hmem, hname⟩ := processSymbols_name_shape rest lines parent c h
      have hmem' : nm' ∈ treeNames (Symbol.mk nm kd rg ch :: rest) := by
        rw [treeNames]
        exact List.mem_cons_of_mem _ (List.mem_append_right _ hmem)
      exact ⟨nm', hmem', hname⟩
    | some k =>
      rw [processSymbols, hk] at h
      dsimp only at h
      by_cases hv : rg.start.line ≥ rg.«end».line || rg.«end».line ≥ lines.length
      · rw [if_pos hv] at h
        obtain ⟨nm', hmem, hname⟩ := processSymbols_name_shape rest lines parent c h
        have hmem' : nm' ∈ treeNames (Symbol.mk nm kd rg ch :: rest) := by
          rw [treeNames]
          exact List.mem_cons_of_mem _ (List.mem_append_right _ hmem)
        exact ⟨nm', hmem', hname⟩
      · rw [if_neg hv] at h
        rcases List.mem_cons.mp h with rfl | h1
        · have hmem' : nm ∈ treeNames (Symbol.mk nm kd rg ch :: rest) := by
            rw [treeNames]
            exact List.mem_cons_self _ _
          exact ⟨nm, hmem', rfl⟩
        · rcases List.mem_append.mp h1 with h2 | h2
          · obtain ⟨nm', hmem, hname⟩ := processSymbols_name_shape ch lines _ c h2
            have hmem' : nm' ∈ treeNames (Symbol.mk nm kd rg ch :: rest) := by
              rw [treeNames]
              exact List.mem_cons_of_mem _ (List.mem_append_left _ hmem)
            exact ⟨nm', hmem', hname⟩
          · obtain ⟨nm', hmem, hname⟩ := processSymbols_name_shape rest lines parent c h2
            have hmem' : nm' ∈ treeNames (Symbol.mk nm kd rg ch :: rest) := by
              rw [treeNames]
              exact List.mem_cons_of_mem _ (List.mem_append_right _ hmem)
            exact ⟨nm', hmem', hname⟩

/-- Chunks emitted under a `some` parent context always carry a parent. -/
def processSymbols_parent_isSome : ∀ (syms : List Symbol) (lines : List String)
    (pn : String) (c : CodeChunk), c ∈ processSymbols syms lines (some pn) →
    c.parent.isSome = true
  | [], _, _, _, h => by rw [processSymbols] at h; exact absurd h (List.not_mem_nil _)
  | Symbol.mk nm kd rg ch :: rest, lines, pn, c, h => by
    match hk : kindName kd with
    | none =>
      rw [processSymbols, hk] at h
      exact processSymbols_parent_isSome rest lines pn c h
    | some k =>
      rw [processSymbols, hk] at h
      dsimp only at h
      by_cases hv : rg.start.line ≥ rg.«end».line || rg.«end».line ≥ lines.length
      · rw [if_pos hv] at h
        exact processSymbols_parent_isSome rest lines pn c h
      · rw [if_neg hv] at h
        rcases List.mem_cons.mp h with rfl | h1
        · rfl
        · rcases List.mem_append.mp h1 with h2 | h2
          · exact processSymbols_parent_isSome ch lines _ c h2
          · exact processSymbols_parent_isSome rest lines pn c h2

/-- A chunk without a parent can only come from a top-level recognized
symbol, and is named after it. -/
def processSymbols_top_level : ∀ (syms : List Symbol) (lines : List String)
    (c : CodeChunk), c ∈ processSymbols syms lines none → c.parent = none →
    ∃ s ∈ syms, (kindName s.kind).isSome = true ∧ c.name = s.name
  | [], _, _, h, _ => by rw [processSymbols] at h; exact absurd h (List.not_mem_nil _)
  | Symbol.mk nm kd rg ch :: rest, lines, c, h, hnone => by
    match hk : kindName kd with
    | none =>
      rw [processSymbols, hk] at h
      obtain ⟨s, hs, hrec, hname⟩ := processSymbols_top_level rest lines c h hnone
      exact ⟨s, List.mem_cons_of_mem _ hs, hrec, hname⟩
    | some k =>
      rw [processSymbols, hk] at h
      dsimp only at h
      by_cases hv : rg.start.line ≥ rg.«end».line || rg.«end».line ≥ lines.length
      · rw [if_pos hv] at h
        obtain ⟨s, hs, hrec, hname⟩ := processSymbols_top_level rest lines c h hnone
        exact ⟨s, List.mem_cons_of_mem _ hs, hrec, hname⟩
      · rw [if_neg hv] at h
        rcases List.mem_cons.mp h with rfl | h1
        · exact ⟨Symbol.mk nm kd rg ch, List.mem_cons_self _ _,
            by rw [Symbol.kind, hk]; rfl, rfl⟩
        · rcases List.mem_append.mp h1 with h2 | h2
          · exact absurd (processSymbols_parent_isSome ch lines _ c h2)
              (by rw [hnone]; simp)
          · obtain ⟨s, hs, hrec, hname⟩ := processSymbols_top_level rest lines c h2 hnone
            exact ⟨s, List.mem_cons_of_mem _ hs, hrec, hname⟩

/-- The UTF-8 byte length of a character sequence, matching Rust's
`str::len`. -/
def byteLen (l : List Char) : Nat :=
  (l.map Char.utf8Size).sum

/-- A response stream whose header lines are terminated by `\r\n`,
followed (after the `\r\n`-terminated blank line) by `tail`. -/
def crlfStream (headers : List (List Char)) (tail : List Char) : List Char :=
  (headers.map (fun h => h ++ ['\r', '\n'])).flatten ++ '\r' :: '\n' :: tail

/-- A response stream whose header lines are terminated by `\n`,
followed (after the `\n`-terminated blank line) by `tail`. -/
def lfStream (headers : List (List Char)) (tail : List Char) : List Char :=
  (headers.map (fun h => h ++ ['\n'])).flatten ++ '\n' :: tail

/-- The chunk file written for the `j`-th chunk (0-based) when the write
loop starts at index `i`: its name is built by `chunkFilename` at index
`i + j` and its content is the chunk's content. -/
def chunkFiles_shape : ∀ (chunks : List CodeChunk) (i j : Nat)
    (files : List (String × String)) (c : CodeChunk),
    chunkFiles i chunks = some files → chunks[j]? = some c →
    ∃ sn, sanitize_name c.name = some sn
      ∧ files[j]? = some (chunkFilename (i + j) sn c, c.content)
  | [], _, j, _, _, _, hc => by simp at hc
  | c0 :: cs, i, j, files, c, hf, hc => by
    rw [chunkFiles] at hf
    match hs : sanitize_name c0.name with
    | none => rw [hs] at hf; exact absurd hf (by simp)
    | some sn0 =>
      rw [hs] at hf
      dsimp only at hf
      match hrec : chunkFiles (i + 1) cs with
      | none => rw [hrec] at hf; exact absurd hf (by simp)
      | some files' =>
        rw [hrec] at hf
        simp only [Option.map_some', Option.some.injEq] at hf
        subst hf
        match j with
        | 0 =>
          simp only [List.getElem?_cons_zero, Option.some.injEq] at hc
          subst hc
          exact ⟨sn0, hs, by simp⟩
        | j + 1 =>
          simp only [List.getElem?_cons_succ] at hc ⊢
          obtain ⟨sn, hsn, hfile⟩ := chunkFiles_shape cs (i + 1) j files' c hrec hc
          refine ⟨sn, hsn, ?_⟩
          rw [show i + (j + 1) = i + 1 + j by omega]
          exact hfile

/-- A JSON value as src/main.rs's `serde_json::from_slice` produces it.
Numbers keep their raw lexeme: the source only ever compares the `id`
number against the integer `2` and decodes non-negative integers, so no
floating-point value semantics are needed. -/
inductive JValue : Type where
  | jnull : JValue
  | jbool : Bool → JValue
  | jnum : List Char → JValue
  | jstr : List Char → JValue
  | jarr : List JValue → JValue
  | jobj : List (List Char × JValue) → JValue

/-- The JSON whitespace set (space, tab, newline, carriage return). -/
def jsonWs (c : Char) : Bool :=
  c = ' ' || c = '\t' || c = '\n' || c = '\r'

def skipWsJ (cs : List Char) : List Char :=
  cs.dropWhile jsonWs

/-- JSON string escapes (`\uXXXX` escapes are outside the model; no
message in this development uses them). -/
def unescapeChar (e : Char) : Option Char :=
  if e = '"' ∨ e = '\\' ∨ e = '/' then some e
  else if e = 'n' then some '\n'
  else if e = 't' then some '\t'
  else if e = 'r' then some '\r'
  else if e = 'b' then some (Char.ofNat 8)
  else if e = 'f' then some (Char.ofNat 12)
  else none

/-- The body of a JSON string after its opening quote: content up to the
closing quote, with escapes resolved. -/
def parseJStringBody : List Char → Option (List Char × List Char)
  | [] => none
  | '"' :: rest => some ([], rest)
  | '\\' :: e :: rest =>
    (unescapeChar e).bind fun c => (parseJStringBody rest).map fun p => (c :: p.1, p.2)
  | c :: rest => (parseJStringBody rest).map fun p => (c :: p.1, p.2)

def takeDigits (cs : List Char) : List Char × List Char :=
  (cs.takeWhile Char.isDigit, cs.dropWhile Char.isDigit)

/-- The integer part of a JSON number: `0`, or a nonzero digit followed
by digits. -/
def parseIntPart : List Char → Option (List Char × List Char)
  | '0' :: rest => some (['0'], rest)
  | cs =>
    match takeDigits cs with
    | ([], _) => none
    | (ds, rest) => some (ds, rest)

def parseExpTail (acc : List Char) (e : Char) (cs : List Char) :
    Option (List Char × List Char) :=
  let p : List Char × List Char :=
    match cs with
    | '+' :: rest => (['+'], rest)
    | '-' :: rest => (['-'], rest)
    | _ => ([], cs)
  match takeDigits p.2 with
  | ([], _) => none
  | (ds, rest) => some (acc ++ e :: p.1 ++ ds, rest)

def parseExpOpt (acc : List Char) : List Char → Option (List Char × List Char)
  | 'e' :: rest => parseExpTail acc 'e' rest
  | 'E' :: rest => parseExpTail acc 'E' rest
  | cs => some (acc, cs)

/-- A JSON number token: optional minus, integer part, optional
fraction, optional exponent; the raw lexeme is kept. -/
def parseNumTok (cs : List Char) : Option (List Char × List Char) :=
  let p : List Char × List Char :=
    match cs with
    | '-' :: rest => (['-'], rest)
    | _ => ([], cs)
  match parseIntPart p.2 with
  | none => none
  | some q =>
    match q.2 with
    | '.' :: rest =>
      match takeDigits rest with
      | ([], _) => none
      | (ds, rest') => parseExpOpt (p.1 ++ q.1 ++ '.' :: ds) rest'
    | _ => parseExpOpt (p.1 ++ q.1) q.2

/-- Array-element loop of the JSON parser, over an abstract
element parser `p` (instantiated with the parser at one less nesting
fuel), with its own step fuel. -/
def parseArrLoop (p : List Char → Option (JValue × List Char)) :
    Nat → List Char → List JValue → Option (JValue × List Char)
  | 0, _, _ => none
  | n + 1, cs, acc =>
    match p cs with
    | none => none
    | some (v, rest) =>
      match skipWsJ rest with
      | ',' :: rest' => parseArrLoop p n rest' (acc ++ [v])
      | ']' :: rest' => some (.jarr (acc ++ [v]), rest')
      | _ => none

/-- Object-member loop of the JSON parser. -/
def parseObjLoop (p : List Char → Option (JValue × List Char)) :
    Nat → List Char → List (List Char × JValue) → Option (JValue × List Char)
  | 0, _, _ => none
  | n + 1, cs, acc =>
    match skipWsJ cs with
    | '"' :: rest =>
      match parseJStringBody rest with
      | none => none
      | some (key, rest1) =>
        match skipWsJ rest1 with
        | ':' :: rest2 =>
          match p rest2 with
          | none => none
          | some (v, rest3) =>
            match skipWsJ rest3 with
            | ',' :: rest4 => parseObjLoop p n rest4 (acc ++ [(key, v)])
            | '}' :: rest4 => some (.jobj (acc ++ [(key, v)]), rest4)
            | _ => none
        | _ => none
    | _ => none

/-- Recursive-descent JSON value parser with nesting fuel, modelling the
grammar `serde_json` accepts.  Returns the value and the unconsumed
input. -/
def parseJson : Nat → List Char → Option (JValue × List Char)
  | 0, _ => none
  | fuel + 1, cs =>
    match skipWsJ cs with
    | 'n' :: 'u' :: 'l' :: 'l' :: rest => some (.jnull, rest)
    | 't' :: 'r' :: 'u' :: 'e' :: rest => some (.jbool true, rest)
    | 'f' :: 'a' :: 'l' :: 's' :: 'e' :: rest => some (.jbool false, rest)
    | '"' :: rest => (parseJStringBody rest).map fun p => (.jstr p.1, p.2)
    | '[' :: rest =>
      (match skipWsJ rest with
       | ']' :: rest' => some (.jarr [], rest')
       | _ => parseArrLoop (parseJson fuel) (rest.length + 1) rest [])
    | '{' :: rest =>
      (match skipWsJ rest with
       | '}' :: rest' => some (.jobj [], rest')
       | _ => parseObjLoop (parseJson fuel) (rest.length + 1) rest [])
    | cs' => (parseNumTok cs').map fun p => (.jnum p.1, p.2)

/-- `serde_json::from_slice::<Value>`: parse one JSON value and demand
that only whitespace follows — trailing content is a parse error. -/
def from_slice (content : List Char) : Option JValue :=
  match parseJson (content.length + 1) content with
  | some (v, rest) => if skipWsJ rest = [] then some v else none
  | none => none

/-- `Value::get(key)` on an object (`serde_json`'s map keeps the last
binding of a duplicated key). -/
def lookupLast : List (List Char × JValue) → List Char → Option JValue
  | [], _ => none
  | (k, v) :: rest, key =>
    match lookupLast rest key with
    | some v' => some v'
    | none => if k = key then some v else none

def jsonGet (v : JValue) (key : List Char) : Option JValue :=
  match v with
  | .jobj fields => lookupLast fields key
  | _ => none

/-- Decoding a non-negative integer from a JSON number, as serde does
for `usize` fields: the lexeme must be a plain digit string (a minus
sign, fraction or exponent fails the decode). -/
def decodeNatNum : JValue → Option Nat
  | .jnum l =>
    if l ≠ [] ∧ l.all Char.isDigit then
      some (l.foldl (fun a c => 10 * a + (c.toNat - 48)) 0)
    else
      none
  | _ => none

/-- Decoding a `u8` field (`kind`): additionally bounded by 255. -/
def decodeU8 (v : JValue) : Option Nat :=
  (decodeNatNum v).bind fun n => if n ≤ 255 then some n else none

/-- serde decode of src/main.rs's `Position` struct.  That struct's
second field is literally named `_character` with no serde rename, so
the decoder demands a `_character` key (one of the legacy module's
quirks; src/chunking.rs renames it to `character`). -/
def decodePosition (v : JValue) : Option Position :=
  match jsonGet v "line".data, jsonGet v "_character".data with
  | some lv, some cv =>
    (decodeNatNum lv).bind fun ln => (decodeNatNum cv).map fun ch => ⟨ln, ch⟩
  | _, _ => none

/-- serde decode of the `Range` struct of src/main.rs. -/
def decodeRange (v : JValue) : Option SRange :=
  match jsonGet v "start".data, jsonGet v "end".data with
  | some sv, some ev =>
    (decodePosition sv).bind fun st => (decodePosition ev).map fun en => ⟨st, en⟩
  | _, _ => none

/-- Decoding a list of symbols with an abstract element decoder
(instantiated with the symbol decoder at one less nesting fuel). -/
def decodeSymbolListF (d : JValue → Option Symbol) : List JValue → Option (List Symbol)
  | [] => some []
  | v :: vs => (d v).bind fun s => (decodeSymbolListF d vs).map fun r => s :: r

/-- serde decode of the `Symbol` struct of src/main.rs: required `name`,
`kind` and `range` fields, `children` defaulting to the empty list. -/
def decodeSymbol : Nat → JValue → Option Symbol
  | 0, _ => none
  | fuel + 1, v =>
    match jsonGet v "name".data, jsonGet v "kind".data, jsonGet v "range".data with
    | some (.jstr nm), some kv, some rv =>
      (decodeU8 kv).bind fun kd =>
      (decodeRange rv).bind fun rg =>
      (match jsonGet v "children".data with
       | none => some []
       | some (.jarr cs) => decodeSymbolListF (decodeSymbol fuel) cs
       | some _ => none).map fun ch => Symbol.mk (String.mk nm) kd rg ch
    | _, _, _ => none

mutual

/-- Size of a JSON value, dominating its nesting depth; used as decoder
fuel. -/
def jsonSize : JValue → Nat
  | .jnull => 1
  | .jbool _ => 1
  | .jnum _ => 1
  | .jstr _ => 1
  | .jarr elems => 1 + jsonSizeList elems
  | .jobj fields => 1 + jsonSizeFields fields

def jsonSizeList : List JValue → Nat
  | [] => 0
  | v :: vs => jsonSize v + jsonSizeList vs

def jsonSizeFields : List (List Char × JValue) → Nat
  | [] => 0
  | (_, v) :: fs => jsonSize v + jsonSizeFields fs

end

/-- `serde_json::from_value::<Vec<Symbol>>` of src/main.rs line 274.
The decoder's nesting fuel is the value's size, which dominates its
nesting depth. -/
def from_value_symbols (v : JValue) : Option (List Symbol) :=
  match v with
  | .jarr elems => decodeSymbolListF (decodeSymbol (jsonSize v)) elems
  | _ => none

/-- The content buffer built by the line loop of `read_document_symbols`
in src/main.rs (lines 244-265): while `in_header` holds, blank lines
flip the flag and all other lines are recorded as headers or ignored;
afterwards every line's bytes are appended to `content` — including any
further framing headers, since `in_header` is never set back. -/
def mainContent : List (List Char) → Bool → List Char
  | [], _ => []
  | l :: rest, true =>
    if l = [] then mainContent rest false else mainContent rest true
  | l :: rest, false => l ++ mainContent rest false

/-- `read_document_symbols` of src/main.rs (lines 236-283), the legacy
duplicate of the Chunker's loop: it iterates `stdout.lines()` to
end-of-stream (`BufRead::lines` strips the `\n` and a preceding `\r`),
concatenates everything after the first blank line into one buffer,
parses that single buffer with `serde_json::from_slice`, and succeeds
only when the whole buffer is one JSON value whose `id` equals `2` with
a `result` present; every failure (`?` on the parse, or the fall-through
`Err`) is `none`. -/
def main_read_document_symbols (stream : List Char) : Option (List Symbol) :=
  let ls := (splitKeepNl stream).map stripLineEnd
  let content := mainContent ls true
  match from_slice content with
  | none => none
  | some v =>
    match jsonGet v "id".data with
    | some (.jnum l) =>
      if l = ['2'] then
        match jsonGet v "result".data with
        | some rv => from_value_symbols rv
        | none => none
      else none
    | _ => none

/-- The notification body of the C6 scenario, a message with no
identifier. -/
def c6NotificationBody : List Char :=
  '{' :: ("\"method\":\"initialized\"".data ++ ['}'])

/-- The id-2 document-symbol response body of the C6 scenario, with an
empty result. -/
def c6ResponseBody : List Char :=
  '{' :: ("\"id\":2,\"result\":[]".data ++ ['}'])

/-- The C6 scenario as one byte stream: the framed notification followed
by the framed id-2 response (Content-Length values are the bodies' exact
byte counts). -/
def c6Stream : List Char :=
  "Content-Length: 24\n\n".data ++ c6NotificationBody
    ++ "Content-Length: 20\n\n".data ++ c6ResponseBody

/-- Wrap JSON object braces around already-rendered members. -/
def jobj (inner : List Char) : List Char :=
  '{' :: (inner ++ ['}'])

/-- One rendered document symbol in the shape src/main.rs's serde
structs demand (`_character` keys, see `decodePosition`). -/
def c6SymbolJson : List Char :=
  jobj ("\"name\":\"f\",\"kind\":12,\"range\":".data
    ++ jobj ("\"start\":".data ++ jobj "\"line\":0,\"_character\":0".data
      ++ ",\"end\":".data ++ jobj "\"line\":1,\"_character\":0".data))

/-- An id-2 response body whose result holds that one symbol. -/
def c6RichBody : List Char :=
  jobj ("\"id\":2,\"result\":[".data ++ c6SymbolJson ++ "]".data)

/-- C4: a symbol whose range violates `start_line < end_line` (in
particular `start_line == end_line`) or `end_line < total lines` (in
particular `end_line >= file line count`) produces no chunk and no
failure — processing it is identical to processing the remaining symbols
— and every chunk the extractor does emit satisfies both bounds. -/
theorem c4_range_validation :
    (∀ (nm : String) (kd : Nat) (rg : SRange) (ch rest : List Symbol)
        (lines : List String) (parent : Option String),
        rg.start.line ≥ rg.«end».line ∨ rg.«end».line ≥ lines.length →
        processSymbols (Symbol.mk nm kd rg ch :: rest) lines parent
          = processSymbols rest lines parent)
    ∧ (∀ (syms : List Symbol) (lines : List String) (parent : Option String)
        (c : CodeChunk), c ∈ processSymbols syms lines parent →
        c.start_line < c.end_line ∧ c.end_line < lines.length) := by
  constructor
  · intro nm kd rg ch rest lines parent hbad
    match hk : kindName kd with
    | none => rw [processSymbols, hk]
    | some k =>
      rw [processSymbols, hk]
      dsimp only
      rw [if_pos (by simpa using hbad)]
  · exact processSymbols_valid

/-- C4 witness: a one-line "function" (kind 12) with `start_line ==
end_line == 0` in a two-line file is dropped exactly like an absent
symbol, and a valid chunk's bounds hold. -/
theorem c4_witness :
    processSymbols [Symbol.mk "f" 12 ⟨⟨0, 4⟩, ⟨0, 9⟩⟩ []] ["a", "b"] none
      = processSymbols [] ["a", "b"] none := by
  exact c4_range_validation.1 "f" 12 ⟨⟨0, 4⟩, ⟨0, 9⟩⟩ [] [] ["a", "b"] none
    (Or.inl (by decide))

/-- C7: for a recognized, valid symbol the emitted chunk's name is the
parent qualified name joined to the symbol name by `::` when a parent is
in scope (the symbol's bare name otherwise) and its `parent` field is the
enclosing context; in particular `f` in class `C` in namespace `N` gets
name `N::C::f` and parent `N::C`. -/
theorem c7_name_qualification :
    (∀ (lines : List String) (parent : Option String) (nm : String) (kd : Nat)
        (rg : SRange) (ch rest : List Symbol) (k : String),
        kindName kd = some k →
        rg.start.line < rg.«end».line →
        rg.«end».line < lines.length →
        processSymbols (Symbol.mk nm kd rg ch :: rest) lines parent
          = { name := qualName parent nm,
              content := sliceContent lines rg.start.line rg.«end».line,
              start_line := rg.start.line, end_line := rg.«end».line,
              kind := k, parent := parent }
              :: (processSymbols ch lines (some (qualName parent nm))
                  ++ processSymbols rest lines parent))
    ∧ (processSymbols
          [Symbol.mk "N" 3 ⟨⟨0, 0⟩, ⟨3, 1⟩⟩
            [Symbol.mk "C" 5 ⟨⟨0, 0⟩, ⟨2, 1⟩⟩
              [Symbol.mk "f" 12 ⟨⟨1, 0⟩, ⟨2, 1⟩⟩ []]]]
          ["a", "b", "c", "d"] none).map (fun c => (c.name, c.parent))
        = [("N", none), ("N::C", some "N"), ("N::C::f", some "N::C")] := by
  constructor
  · intro lines parent nm kd rg ch rest k hk h1 h2
    rw [processSymbols, hk]
    dsimp only
    rw [if_neg (by simp [Nat.not_le_of_lt, h1, h2])]
  · simp only [processSymbols, kindName, qualName, sliceContent]
    decide

/-- C7 witness: the qualification equation applied to `f` under the
parent context `N::C`. -/
theorem c7_witness :
    processSymbols [Symbol.mk "f" 12 ⟨⟨1, 0⟩, ⟨2, 1⟩⟩ []] ["a", "b", "c", "d"]
        (some "N::C")
      = { name := qualName (some "N::C") "f",
          content := sliceContent ["a", "b", "c", "d"] 1 2,
          start_line := 1, end_line := 2,
          kind := "function", parent := some "N::C" }
          :: (processSymbols [] ["a", "b", "c", "d"] (some (qualName (some "N::C") "f"))
              ++ processSymbols [] ["a", "b", "c", "d"] (some "N::C")) := by
  exact c7_name_qualification.1 ["a", "b", "c", "d"] (some "N::C") "f" 12
    ⟨⟨1, 0⟩, ⟨2, 1⟩⟩ [] [] "function" rfl (by decide) (by decide)

/-- C8: chunk extraction and chunk persistence are deterministic — the
pure functions `extract_chunks` and `write_chunks` give identical
outputs (chunk sequences; manifest contents and chunk filenames) on
identical inputs.  Both are embedded as pure functions of their inputs
because the Rust originals read nothing else: `extract_chunks` performs
no I/O at all, and `write_chunks`' on-disk output is determined by the
source path and the chunk sequence. -/
theorem c8_determinism :
    (∀ (content content' : String) (syms syms' : List Symbol),
        content = content' → syms = syms' →
        extract_chunks content syms = extract_chunks content' syms')
    ∧ (∀ (path path' : String) (chunks chunks' : List CodeChunk),
        path = path' → chunks = chunks' →
        write_chunks path chunks = write_chunks path' chunks') :=
  ⟨fun _ _ _ _ h1 h2 => by rw [h1, h2], fun _ _ _ _ h1 h2 => by rw [h1, h2]⟩

/-- C8 witness: two runs on one concrete file and chunk list coincide. -/
theorem c8_witness :
    extract_chunks "int f()\nreturn 0\n" [Symbol.mk "f" 12 ⟨⟨0, 0⟩, ⟨1, 0⟩⟩ []]
        = extract_chunks "int f()\nreturn 0\n" [Symbol.mk "f" 12 ⟨⟨0, 0⟩, ⟨1, 0⟩⟩ []]
      ∧ write_chunks "main.cpp"
          [{ name := "f", content := "int f()\nreturn 0", start_line := 0, end_line := 1,
             kind := "function", parent := none }]
        = write_chunks "main.cpp"
          [{ name := "f", content := "int f()\nreturn 0", start_line := 0, end_line := 1,
             kind := "function", parent := none }] :=
  ⟨c8_determinism.1 _ _ _ _ rfl rfl, c8_determinism.2 _ _ _ _ rfl rfl⟩

/-- C10: in the extractor's output, every chunk whose `parent` is
`some p` is preceded by a chunk named exactly `p` and its own name is
`p ++ "::" ++ nm` for a symbol name `nm` of the tree, while chunks with
`parent = none` arise only from top-level recognized symbols and carry
that symbol's bare name. -/
theorem c10_parent_links :
    ∀ (syms : List Symbol) (lines : List String),
      parentSeenScan [] (processSymbols syms lines none) = true
      ∧ (∀ c ∈ processSymbols syms lines none, ∀ p, c.parent = some p →
          ∃ nm, nm ∈ treeNames syms ∧ c.name = p ++ "::" ++ nm)
      ∧ (∀ c ∈ processSymbols syms lines none, c.parent = none →
          ∃ s ∈ syms, (kindName s.kind).isSome = true ∧ c.name = s.name) := by
  intro syms lines
  refine ⟨?_, ?_, ?_⟩
  · exact processSymbols_parent_seen syms lines none [] (fun p h => by cases h)
  · intro c hc p hp
    obtain ⟨nm, hmem, hname⟩ := processSymbols_name_shape syms lines none c hc
    rw [hp] at hname
    exact ⟨nm, hmem, hname⟩
  · exact processSymbols_top_level syms lines

/-- C10 witness: in the `N`/`C` tree the nested chunk `N::C` carries
parent `N`, is preceded by the chunk named `N`, and its name is
`N ++ "::" ++ C`. -/
theorem c10_witness :
    ∃ nm, nm ∈ treeNames
        [Symbol.mk "N" 3 ⟨⟨0, 0⟩, ⟨2, 0⟩⟩ [Symbol.mk "C" 5 ⟨⟨0, 0⟩, ⟨1, 0⟩⟩ []]]
      ∧ "N::C" = "N" ++ "::" ++ nm := by
  have hmem :
      ({ name := "N::C", content := sliceContent ["a", "b", "c"] 0 1,
         start_line := 0, end_line := 1, kind := "class", parent := some "N" } : CodeChunk)
        ∈ processSymbols
            [Symbol.mk "N" 3 ⟨⟨0, 0⟩, ⟨2, 0⟩⟩ [Symbol.mk "C" 5 ⟨⟨0, 0⟩, ⟨1, 0⟩⟩ []]]
            ["a", "b", "c"] none := by
    simp only [processSymbols, kindName, qualName, sliceContent]
    decide
  have h := (c10_parent_links
      [Symbol.mk "N" 3 ⟨⟨0, 0⟩, ⟨2, 0⟩⟩ [Symbol.mk "C" 5 ⟨⟨0, 0⟩, ⟨1, 0⟩⟩ []]]
      ["a", "b", "c"]).2.1 _ hmem "N" rfl
  exact h

/-- C1 counterexample: the claim fails as stated, because a recognized
symbol with an invalid range is skipped together with its whole subtree.
Here a kind-12 symbol `f` with `start_line = end_line = 0` contains a
kind-12 child `g` with a valid range: the claimed pre-order traversal
(pruned only at unrecognized kinds) visits both symbols, but the
extractor emits nothing. -/
theorem c1_counterexample :
    (processSymbols
        [Symbol.mk "f" 12 ⟨⟨0, 0⟩, ⟨0, 0⟩⟩ [Symbol.mk "g" 12 ⟨⟨0, 0⟩, ⟨1, 0⟩⟩ []]]
        ["a", "b"] none).map chunkProj
      ≠ (reachableRecognized
          [Symbol.mk "f" 12 ⟨⟨0, 0⟩, ⟨0, 0⟩⟩ [Symbol.mk "g" 12 ⟨⟨0, 0⟩, ⟨1, 0⟩⟩ []]]).map
          symProj := by
  simp only [processSymbols, reachableRecognized, kindName]
  decide

/-- C1 (amended with the hypothesis the counterexample forces): when
every reachable recognized symbol also has a valid range, the extractor's
output is exactly the pre-order traversal of the recognized-kind subtrees
reachable without passing through an unrecognized-kind node — symbols of
any other kind contribute no chunk and none of their descendants do, and
the order is the visit order, with no resorting. -/
theorem c1_flattening_order :
    ∀ (syms : List Symbol) (lines : List String),
      (∀ s ∈ reachableRecognized syms, rangeValid lines.length s) →
      (processSymbols syms lines none).map chunkProj
        = (reachableRecognized syms).map symProj :=
  fun syms lines h => processSymbols_pre_order syms lines none h

/-- C1 witness: a mixed tree — an unrecognized kind-13 symbol whose
recognized child is pruned with it, next to a recognized namespace with
a nested function — matches the pre-order traversal. -/
theorem c1_witness :
    (processSymbols
        [Symbol.mk "v" 13 ⟨⟨0, 0⟩, ⟨3, 0⟩⟩ [Symbol.mk "m" 6 ⟨⟨0, 0⟩, ⟨1, 0⟩⟩ []],
         Symbol.mk "N" 3 ⟨⟨0, 0⟩, ⟨3, 0⟩⟩ [Symbol.mk "f" 12 ⟨⟨1, 0⟩, ⟨2, 0⟩⟩ []]]
        ["a", "b", "c", "d"] none).map chunkProj
      = (reachableRecognized
          [Symbol.mk "v" 13 ⟨⟨0, 0⟩, ⟨3, 0⟩⟩ [Symbol.mk "m" 6 ⟨⟨0, 0⟩, ⟨1, 0⟩⟩ []],
           Symbol.mk "N" 3 ⟨⟨0, 0⟩, ⟨3, 0⟩⟩ [Symbol.mk "f" 12 ⟨⟨1, 0⟩, ⟨2, 0⟩⟩ []]]).map
          symProj := by
  refine c1_flattening_order _ ["a", "b", "c", "d"] ?_
  simp only [reachableRecognized, kindName]
  decide

/-- C2 counterexample: with one discovered file and a child that answers
the initialize request (id 1) and then the document-symbol request
(id 2), the run trace sends the id-2 document-symbol query before any
receive at all — so it is not preceded by the receipt of the id-1
initialize response, contradicting the claimed handshake ordering. -/
theorem c2_counterexample :
    queryAfterInitResp
        (runTrace ["a.cpp"] [⟨some 1, none⟩, ⟨some 2, some []⟩]) false = false := by
  decide

/-- C2 (amended as the counterexample forces): `Chunker::run` sends the
initialize request and proceeds directly to the per-file queries without
waiting for any response; no receive at all happens before the first
id-2 document-symbol request is sent (or ever, when there is no file),
and the initialize response is only consumed — and discarded — by the
id-2 read loop afterwards. -/
theorem c2_no_wait_for_init :
    ∀ (files : List String) (input : List LspMsg),
      noRecvBeforeQuery (runTrace files input) = true := by
  intro files input
  match files with
  | [] => rfl
  | f :: files' =>
    rw [runTrace, processFilesEvents]
    dsimp only
    match h2 : (readDocEvents input).2 with
    | none => rfl
    | some input' => rfl

/-- The Chunker's `read_document_symbols` (src/chunking.rs lines
542-578) tolerates any number of interleaved messages without the
expected identifier ahead of the id-2 response carrying a present
result: it does not error and returns that response's decoded result,
with the rest of the stream untouched. -/
theorem chunker_discard_unmatched :
    ∀ (pre : List LspMsg) (m : LspMsg) (rest : List LspMsg) (syms : List Symbol),
      (∀ x ∈ pre, x.id ≠ some 2) → m.id = some 2 → m.result = some syms →
      read_document_symbols (pre ++ m :: rest) = some (syms, rest) := by
  intro pre
  induction pre with
  | nil =>
    intro m rest syms _ hid hres
    rw [List.nil_append, read_document_symbols, if_pos hid, hres]
  | cons x pre ih =>
    intro m rest syms hpre hid hres
    rw [List.cons_append, read_document_symbols,
      if_neg (hpre x (List.mem_cons_self _ _))]
    exact ih m rest syms (fun y hy => hpre y (List.mem_cons_of_mem _ hy)) hid hres

/-- Instance of the Chunker's discard loop: a notification-shaped
message (no identifier) followed by the id-2 response with an (empty)
result list is handled without error. -/
theorem chunker_discard_unmatched_instance :
    read_document_symbols [⟨none, none⟩, ⟨some 2, some []⟩] = some ([], []) := by
  exact chunker_discard_unmatched [⟨none, none⟩] ⟨some 2, some []⟩ [] []
    (by decide) rfl rfl

set_option maxRecDepth 8192 in
/-- C6: FALSIFIED for the legacy implementation the claim also cites —
fed the claim's exact scenario (a framed notification-shaped message
with no identifier ahead of the framed id-2 response carrying a present
result), `read_document_symbols` of src/main.rs (lines 236-283) reads
to end-of-stream, concatenates the notification body, the second
message's `Content-Length` header and the id-2 body into one buffer,
fails to parse that buffer as a single JSON value (trailing content),
and returns an error instead of the id-2 result.  The Chunker's
`read_document_symbols` (src/chunking.rs lines 542-578), which the
spec's session protocol describes, discards the notification and
returns the id-2 result on the same message sequence, as the second
conjunct shows. -/
theorem c6_main_variant_errors :
    main_read_document_symbols c6Stream = none
    ∧ read_document_symbols [⟨none, none⟩, ⟨some 2, some []⟩] = some ([], []) :=
  ⟨rfl, rfl⟩

set_option maxRecDepth 8192 in
/-- Sanity check that the legacy model does not fail vacuously: a stream
holding exactly one framed id-2 response with an empty result decodes
successfully. -/
theorem main_read_single_message :
    main_read_document_symbols ("Content-Length: 20\n\n".data ++ c6ResponseBody)
      = some [] :=
  rfl

set_option maxRecDepth 8192 in
/-- Second sanity check: with one symbol in the result, the legacy model
parses and decodes it, exercising the object, array, number and string
grammar and the struct decoders. -/
theorem main_read_single_symbol :
    main_read_document_symbols
        ("Content-Length: ".data ++ natChars (byteLen c6RichBody)
          ++ "\n\n".data ++ c6RichBody)
      = some [Symbol.mk "f" 12 ⟨⟨0, 0⟩, ⟨1, 0⟩⟩ []] :=
  rfl

/-- C3 counterexample: the claim fails as stated, because the extension
of a chunk file never depends on the source file: for a chunk of the
source file `widget.h` (extension `h`) the written filename is
`001_f_function_1.cpp` — the `.cpp` literal of the format string at
src/chunking.rs line 208 — which does not end in `.h`. -/
theorem c3_counterexample :
    (write_chunks "widget.h"
        [{ name := "f", content := "x", start_line := 0, end_line := 1,
           kind := "function", parent := none }]).map (fun o => o.files.map Prod.fst)
      = some ["001_f_function_1.cpp"]
    ∧ ".h".data.isSuffixOf "001_f_function_1.cpp".data = false := by
  constructor
  · decide
  · decide

/-- C3 (amended as the counterexample forces): the `j`-th chunk (0-based)
is written to a file named, in order, by the zero-padded 1-based sequence
number, the sanitized qualified name, the kind, and the 1-based start
line, with the fixed extension `.cpp` regardless of the originating
source file's extension. -/
theorem c3_filename_format :
    (∀ (chunks : List CodeChunk) (files : List (String × String)) (j : Nat)
        (c : CodeChunk),
        chunkFiles 0 chunks = some files → chunks[j]? = some c →
        ∃ sn, sanitize_name c.name = some sn
          ∧ files[j]? = some (chunkFilename j sn c, c.content))
    ∧ (∀ (path : String) (chunks : List CodeChunk) (out : WriteOutput),
        write_chunks path chunks = some out → chunkFiles 0 chunks = some out.files)
    ∧ (∀ (i : Nat) (sn : String) (c : CodeChunk),
        ∃ stem, chunkFilename i sn c = stem ++ ".cpp") := by
  refine ⟨?_, ?_, ?_⟩
  · intro chunks files j c hf hc
    have h := chunkFiles_shape chunks 0 j files c hf hc
    rwa [Nat.zero_add] at h
  · intro path chunks out hw
    rw [write_chunks] at hw
    match h1 : indexRecords 0 chunks with
    | none => rw [h1] at hw; exact absurd hw (by simp)
    | some recs =>
      match h2 : chunkFiles 0 chunks with
      | none => rw [h1, h2] at hw; exact absurd hw (by simp)
      | some files =>
        rw [h1, h2] at hw
        dsimp only at hw
        simp only [Option.some.injEq] at hw
        rw [← hw]
  · intro i sn c
    exact ⟨_, rfl⟩

/-- C3 witness: the filename equation applied to the single chunk of the
counterexample's file. -/
theorem c3_witness :
    ∃ sn,
      sanitize_name
          ({ name := "f", content := "x", start_line := 0, end_line := 1,
             kind := "function", parent := none } : CodeChunk).name
        = some sn
      ∧ [("001_f_function_1.cpp", "x")][0]?
        = some (chunkFilename 0 sn
            { name := "f", content := "x", start_line := 0, end_line := 1,
              kind := "function", parent := none },
          ({ name := "f", content := "x", start_line := 0, end_line := 1,
             kind := "function", parent := none } : CodeChunk).content) := by
  exact c3_filename_format.1
    [{ name := "f", content := "x", start_line := 0, end_line := 1,
       kind := "function", parent := none }]
    [("001_f_function_1.cpp", "x")] 0 _ (by decide) (by decide)

set_option maxRecDepth 8192 in
/-- C9: FALSIFIED — `sanitize_name` does not return normally on every
input.  Its `r.truncate(200)` panics when byte 200 of the sanitized text
falls inside a multi-byte character: 199 `a`s followed by `é` (a 2-byte
character spanning byte positions 199..201) make `truncate(200)` cut the
`é` in half, which Rust's `String::truncate` rejects with a panic. -/
theorem c9_sanitize_panics :
    sanitize_name (String.mk (List.replicate 199 'a' ++ ['é'])) = none := by
  decide

theorem byteLen_nil : byteLen [] = 0 := rfl

theorem byteLen_cons (c : Char) (l : List Char) :
    byteLen (c :: l) = c.utf8Size + byteLen l := by
  simp [byteLen]

/-- `String.utf8ByteSize` agrees with the character-wise byte count. -/
theorem utf8ByteSize_eq_byteLen (s : String) : s.utf8ByteSize = byteLen s.data := by
  obtain ⟨l⟩ := s
  show String.utf8ByteSize.go l = byteLen l
  induction l with
  | nil => rfl
  | cons c cs ih =>
    rw [String.utf8ByteSize.go, byteLen_cons, ih, Nat.add_comm]

/-- Bounded facts about decimal digit characters, checked by evaluation:
the characters `digitChar d` for `d < 10` are digits, are not whitespace,
and differ from the delimiter characters the transport cares about. -/
theorem digitChar_props :
    ∀ d < 10, (digitChar d).isDigit = true ∧ (digitChar d).isWhitespace = false
      ∧ digitChar d ≠ '\n' ∧ digitChar d ≠ ':' ∧ digitChar d ≠ '+'
      ∧ (digitChar d).toNat - 48 = d := by
  decide

/-- Every character produced by `natCharsAux` comes from the accumulator
or is a decimal digit character. -/
theorem natCharsAux_mem : ∀ (fuel n : Nat) (acc : List Char) (c : Char),
    c ∈ natCharsAux fuel n acc → c ∈ acc ∨ ∃ d, d < 10 ∧ c = digitChar d := by
  intro fuel
  induction fuel with
  | zero => intro n acc c h; exact Or.inl h
  | succ fuel ih =>
    intro n acc c h
    rw [natCharsAux] at h
    by_cases hn : n = 0
    · rw [if_pos hn] at h
      exact Or.inl h
    · rw [if_neg hn] at h
      rcases ih (n / 10) (digitChar (n % 10) :: acc) c h with hacc | hd
      · rcases List.mem_cons.mp hacc with rfl | hacc'
        · exact Or.inr ⟨n % 10, Nat.mod_lt _ (by omega), rfl⟩
        · exact Or.inl hacc'
      · exact Or.inr hd

/-- Every character of `natChars n` is a decimal digit character. -/
theorem natChars_mem (n : Nat) (c : Char) (h : c ∈ natChars n) :
    ∃ d, d < 10 ∧ c = digitChar d := by
  rw [natChars] at h
  by_cases hn : n = 0
  · rw [if_pos hn] at h
    rcases List.mem_singleton.mp h with rfl
    exact ⟨0, by omega, rfl⟩
  · rw [if_neg hn] at h
    rcases natCharsAux_mem n n [] c h with hacc | hd
    · exact absurd hacc (List.not_mem_nil _)
    · exact hd

/-- With sufficient fuel, `natCharsAux` produces the reversed decimal
digit list of `n` in front of the accumulator. -/
theorem natCharsAux_eq_digits : ∀ (fuel n : Nat) (acc : List Char), n ≤ fuel →
    natCharsAux fuel n acc = (Nat.digits 10 n).reverse.map digitChar ++ acc := by
  intro fuel
  induction fuel with
  | zero =>
    intro n acc hn
    have h0 : n = 0 := by omega
    subst h0
    rw [natCharsAux]
    simp [Nat.digits_zero]
  | succ fuel ih =>
    intro n acc hn
    rw [natCharsAux]
    by_cases h0 : n = 0
    · rw [if_pos h0, h0]
      simp [Nat.digits_zero]
    · rw [if_neg h0, ih (n / 10) _ (by omega),
        Nat.digits_def' (by norm_num : 1 < 10) (Nat.pos_of_ne_zero h0)]
      simp [List.map_append]

theorem natChars_eq_digits (n : Nat) (hn : n ≠ 0) :
    natChars n = (Nat.digits 10 n).reverse.map digitChar := by
  rw [natChars, if_neg hn, natCharsAux_eq_digits n n [] (Nat.le_refl n),
    List.append_nil]

/-- Folding the base-10 reconstruction over a reversed digit list yields
`Nat.ofDigits`. -/
theorem foldl_digits_eq_ofDigits : ∀ ds : List Nat,
    List.foldl (fun a d => 10 * a + d) 0 ds.reverse = Nat.ofDigits 10 ds := by
  intro ds
  rw [List.foldl_reverse]
  induction ds with
  | nil => rfl
  | cons d ds ih =>
    rw [List.foldr_cons, ih, Nat.ofDigits_cons]
    ring

/-- The decimal printer and the transport's numeric parser are inverse:
`parseNat` recovers `n` from `natChars n`. -/
theorem parseNat_natChars (n : Nat) : parseNat (natChars n) = some n := by
  by_cases h0 : n = 0
  · rw [h0]
    decide
  · have hdigs := natChars_eq_digits n h0
    have hne : natChars n ≠ [] := by
      rw [hdigs]
      simp only [ne_eq, List.map_eq_nil_iff, List.reverse_eq_nil_iff]
      exact Nat.digits_ne_nil_iff_ne_zero.mpr h0
    have hall : (natChars n).all Char.isDigit = true := by
      rw [List.all_eq_true]
      intro c hc
      obtain ⟨d, hd, rfl⟩ := natChars_mem n c hc
      exact (digitChar_props d hd).1
    have hhead : ¬ (natChars n).head? = some '+' := by
      intro hh
      have hmem : '+' ∈ natChars n := List.mem_of_mem_head? hh
      obtain ⟨d, hd, heq⟩ := natChars_mem n _ hmem
      exact (digitChar_props d hd).2.2.2.2.1 heq.symm
    simp only [parseNat]
    rw [if_neg hhead, if_pos ⟨hne, hall⟩]
    congr 1
    have hfold : List.foldl (fun a c => 10 * a + (c.toNat - 48)) 0 (natChars n)
        = List.foldl (fun a d => 10 * a + d) 0 (Nat.digits 10 n).reverse := by
      rw [hdigs, List.foldl_map]
      refine List.foldl_ext _ _ _ ?_
      intro a d hd
      have hlt : d < 10 := Nat.digits_lt_base (by norm_num) (List.mem_reverse.mp hd)
      rw [(digitChar_props d hlt).2.2.2.2.2]
    rw [hfold, foldl_digits_eq_ofDigits, Nat.ofDigits_digits]

/-- Reading exactly the byte length of a prefix recovers that prefix and
leaves the rest of the stream. -/
theorem readExact_append : ∀ (body rest : List Char),
    readExact (body ++ rest) (byteLen body) = some (body, rest) := by
  intro body
  induction body with
  | nil =>
    intro rest
    rw [List.nil_append, readExact.eq_def, if_pos byteLen_nil]
  | cons c body ih =>
    intro rest
    have hpos := Char.utf8Size_pos c
    rw [List.cons_append, readExact.eq_def, byteLen_cons, if_neg (by omega)]
    dsimp only
    rw [if_pos (by omega),
      show c.utf8Size + byteLen body - c.utf8Size = byteLen body by omega, ih rest]
    rfl

/-- `splitKeepNl` loses no characters: flattening restores the stream. -/
theorem flatten_splitKeepNl : ∀ l : List Char, (splitKeepNl l).flatten = l := by
  intro l
  induction l with
  | nil => rfl
  | cons c rest ih =>
    rw [splitKeepNl]
    by_cases hc : c = '\n'
    · rw [if_pos hc, hc]
      simp only [List.flatten_cons, List.singleton_append]
      rw [ih]
    · rw [if_neg hc]
      match hs : splitKeepNl rest with
      | [] =>
        rw [hs] at ih
        simp only [List.flatten_nil] at ih
        simp [← ih]
      | p :: ps =>
        rw [hs] at ih
        simp only [List.flatten_cons] at ih ⊢
        rw [List.cons_append, ih]

/-- Splitting at the first newline of a newline-free prefix. -/
theorem splitKeepNl_append_nl : ∀ (xs r : List Char), '\n' ∉ xs →
    splitKeepNl (xs ++ '\n' :: r) = (xs ++ ['\n']) :: splitKeepNl r := by
  intro xs
  induction xs with
  | nil =>
    intro r _
    rw [List.nil_append, splitKeepNl, if_pos rfl]
    rfl
  | cons c xs ih =>
    intro r hnl
    have hc : c ≠ '\n' := fun h => hnl (h ▸ List.mem_cons_self _ _)
    rw [List.cons_append, splitKeepNl, if_neg hc,
      ih r (fun h => hnl (List.mem_cons_of_mem _ h))]
    rfl

/-- Trimming removes a trailing whitespace character. -/
theorem trimChars_append_ws (xs : List Char) (w : Char)
    (hw : w.isWhitespace = true) : trimChars (xs ++ [w]) = trimChars xs := by
  rw [trimChars, trimChars, List.reverse_append, List.reverse_singleton,
    List.singleton_append, List.dropWhile_cons, if_pos hw]

/-- A list whose first and last characters are not whitespace is its own
trim. -/
theorem trimChars_no_ws (l : List Char)
    (hhead : ∀ c, l.head? = some c → c.isWhitespace = false)
    (hlast : ∀ c, l.getLast? = some c → c.isWhitespace = false) :
    trimChars l = l := by
  rw [trimChars]
  have hrev : l.reverse.dropWhile Char.isWhitespace = l.reverse := by
    match hr : l.reverse with
    | [] => rfl
    | c :: cs =>
      have hc : l.getLast? = some c := by
        rw [← List.head?_reverse, hr]
        rfl
      rw [List.dropWhile_cons, if_neg (by rw [hlast c hc]; exact Bool.false_ne_true)]
  rw [hrev, List.reverse_reverse]
  match hl : l with
  | [] => rfl
  | c :: cs =>
    rw [List.dropWhile_cons,
      if_neg (by rw [hhead c rfl]; exact Bool.false_ne_true)]

theorem natChars_ne_nil (n : Nat) : natChars n ≠ [] := by
  by_cases h0 : n = 0
  · rw [h0]
    decide
  · rw [natChars_eq_digits n h0]
    simp only [ne_eq, List.map_eq_nil_iff, List.reverse_eq_nil_iff]
    exact Nat.digits_ne_nil_iff_ne_zero.mpr h0

/-- Trimming a single leading space off an otherwise whitespace-free,
non-empty word. -/
theorem trimChars_space_prefix (ds : List Char) (hne : ds ≠ [])
    (hws : ∀ c ∈ ds, c.isWhitespace = false) : trimChars (' ' :: ds) = ds := by
  obtain ⟨d, tl, hrev⟩ : ∃ d tl, ds.reverse = d :: tl := by
    match h : ds.reverse with
    | [] => exact absurd (List.reverse_eq_nil_iff.mp h) hne
    | d :: tl => exact ⟨d, tl, rfl⟩
  have hd : d ∈ ds := List.mem_reverse.mp (hrev ▸ List.mem_cons_self d tl)
  rw [trimChars, List.reverse_cons, hrev, List.cons_append, List.dropWhile_cons,
    if_neg (by rw [hws d hd]; exact Bool.false_ne_true), ← List.cons_append, ← hrev,
    List.reverse_append, List.reverse_reverse]
  rw [show [' '].reverse = [' '] from rfl, List.singleton_append, List.dropWhile_cons,
    if_pos (by decide)]
  match hds : ds with
  | [] => exact absurd rfl hne
  | d' :: ds' =>
    rw [List.dropWhile_cons,
      if_neg (by
        rw [hws d' (List.mem_cons_self _ _)]
        exact Bool.false_ne_true)]

theorem isCLHeader_of_append (ds : List Char) :
    isCLHeader ("Content-Length: ".data ++ ds) = true := by
  rw [isCLHeader, List.isPrefixOf_iff_prefix]
  exact ⟨' ' :: ds,
    by rw [show "Content-Length: ".data = "Content-Length:".data ++ [' '] from by decide,
      List.append_assoc]; rfl⟩

theorem clValue_of_append (ds : List Char) (hds : ∀ c ∈ ds, c ≠ ':') :
    clValue ("Content-Length: ".data ++ ds) = ' ' :: ds := by
  rw [clValue, List.drop_append_of_le_length (by decide),
    show "Content-Length: ".data.drop 15 = [' '] from by decide,
    List.singleton_append, List.takeWhile_cons, if_pos (by decide)]
  rw [List.takeWhile_eq_self_iff.mpr]
  intro c hc
  exact decide_eq_true (hds c hc)

/-- The trimmed `Content-Length` header line. -/
theorem trimChars_cl_line (n : Nat) :
    trimChars (("Content-Length: ".data ++ natChars n) ++ ['\n'])
      = "Content-Length: ".data ++ natChars n := by
  rw [trimChars_append_ws _ _ (by decide)]
  refine trimChars_no_ws _ ?_ ?_
  · intro c hc
    rw [show ("Content-Length: ".data ++ natChars n) = 'C' :: ("ontent-Length: ".data ++ natChars n) from rfl,
      List.head?_cons, Option.some.injEq] at hc
    rw [← hc]
    decide
  · intro c hc
    rw [List.getLast?_append] at hc
    obtain ⟨d, hd⟩ : ∃ d, (natChars n).getLast? = some d := by
      rcases h : (natChars n).getLast? with _ | d
      · exact absurd (List.getLast?_eq_none_iff.mp h) (natChars_ne_nil n)
      · exact ⟨d, rfl⟩
    rw [hd, Option.or_some, Option.some.injEq] at hc
    rw [← hc]
    obtain ⟨e, he, heq⟩ := natChars_mem n d (List.mem_of_getLast?_eq_some hd)
    rw [heq]
    exact (digitChar_props e he).2.1

/-- Step lemma: a line that trims to blank ends the header section. -/
theorem readHeaderLines_blank (l : List Char) (L : List (List Char)) (acc : Option Nat)
    (h : trimChars l = []) : readHeaderLines (l :: L) acc = .ok (acc, L) := by
  rw [readHeaderLines]
  simp [h]

/-- Step lemma: a `Content-Length` line with a parsable value replaces
the remembered length. -/
theorem readHeaderLines_cl (l : List Char) (L : List (List Char)) (acc : Option Nat)
    (n : Nat) (hne : trimChars l ≠ []) (hcl : isCLHeader (trimChars l) = true)
    (hp : parseNat (trimChars (clValue (trimChars l))) = some n) :
    readHeaderLines (l :: L) acc = readHeaderLines L (some n) := by
  rw [readHeaderLines]
  simp [hne, hcl, hp]

/-- Step lemma: a `Content-Length` line with an unparsable value fails. -/
theorem readHeaderLines_cl_bad (l : List Char) (L : List (List Char)) (acc : Option Nat)
    (hne : trimChars l ≠ []) (hcl : isCLHeader (trimChars l) = true)
    (hp : parseNat (trimChars (clValue (trimChars l))) = none) :
    readHeaderLines (l :: L) acc = .error .badLengthValue := by
  rw [readHeaderLines]
  simp [hne, hcl, hp]

/-- Step lemma: any other non-blank line is ignored. -/
theorem readHeaderLines_other (l : List Char) (L : List (List Char)) (acc : Option Nat)
    (hne : trimChars l ≠ []) (hcl : isCLHeader (trimChars l) = false) :
    readHeaderLines (l :: L) acc = readHeaderLines L acc := by
  rw [readHeaderLines]
  simp [hne, hcl]

/-- Processing the framing headers written by `send_lsp_request`: one
`Content-Length` line with the printed value `n`, then the blank line. -/
theorem readHeaderLines_round (n : Nat) (restLines : List (List Char)) :
    readHeaderLines
        ((("Content-Length: ".data ++ natChars n) ++ ['\n']) :: ['\n'] :: restLines) none
      = .ok (some n, restLines) := by
  have hds : ∀ c ∈ natChars n, c ≠ ':' := by
    intro c hc
    obtain ⟨d, hd, rfl⟩ := natChars_mem n c hc
    exact (digitChar_props d hd).2.2.2.1
  have hne : "Content-Length: ".data ++ natChars n ≠ [] := by
    intro h
    have : ('C' : Char) ∈ "Content-Length: ".data ++ natChars n := by
      rw [show ("Content-Length: ".data ++ natChars n)
          = 'C' :: ("ontent-Length: ".data ++ natChars n) from rfl]
      exact List.mem_cons_self _ _
    rw [h] at this
    exact List.not_mem_nil _ this
  rw [readHeaderLines_cl _ _ _ n (by rw [trimChars_cl_line]; exact hne)
      (by rw [trimChars_cl_line]; exact isCLHeader_of_append (natChars n))
      (by
        rw [trimChars_cl_line, clValue_of_append (natChars n) hds,
          trimChars_space_prefix (natChars n) (natChars_ne_nil n) (by
            intro c hc
            obtain ⟨d, hd, rfl⟩ := natChars_mem n c hc
            exact (digitChar_props d hd).2.1)]
        exact parseNat_natChars n),
    readHeaderLines_blank ['\n'] restLines (some n) (by decide)]

/-- C5 part (a), framing round trip: reading back a stream produced by
`send_lsp_request` yields exactly the sent body and leaves the rest of
the stream untouched. -/
theorem read_lsp_response_round (body : String) (rest : List Char) :
    read_lsp_response (send_lsp_request body ++ rest) = .ok (body, rest) := by
  have hnl : ('\n' : Char) ∉ "Content-Length: ".data ++ natChars body.utf8ByteSize := by
    intro h
    rcases List.mem_append.mp h with h1 | h2
    · revert h1
      decide
    · obtain ⟨d, hd, heq⟩ := natChars_mem _ _ h2
      exact (digitChar_props d hd).2.2.1 heq.symm
  have hstream : send_lsp_request body ++ rest
      = ("Content-Length: ".data ++ natChars body.utf8ByteSize)
          ++ '\n' :: ('\n' :: (body.data ++ rest)) := by
    rw [send_lsp_request, String.data_append]
    simp [List.append_assoc]
  rw [hstream, read_lsp_response,
    splitKeepNl_append_nl _ _ hnl,
    show splitKeepNl ('\n' :: (body.data ++ rest))
      = ['\n'] :: splitKeepNl (body.data ++ rest) from by rw [splitKeepNl, if_pos rfl],
    readHeaderLines_round]
  dsimp only
  rw [flatten_splitKeepNl, utf8ByteSize_eq_byteLen, readExact_append]

/-- C5 part (b), header processing is insensitive to `\r\n` versus `\n`
line termination: the header loop sees the same trimmed lines and leaves
the same remaining stream. -/
theorem readHeaderLines_crlf_lf :
    ∀ (headers : List (List Char)) (tail : List Char) (acc : Option Nat),
      (∀ h ∈ headers, '\n' ∉ h ∧ trimChars h ≠ []) →
      readHeaderLines (splitKeepNl (crlfStream headers tail)) acc
        = readHeaderLines (splitKeepNl (lfStream headers tail)) acc := by
  intro headers
  induction headers with
  | nil =>
    intro tail acc _
    have hsplit : splitKeepNl ('\r' :: '\n' :: tail) = ['\r', '\n'] :: splitKeepNl tail := by
      rw [splitKeepNl, if_neg (by decide), splitKeepNl, if_pos rfl]
    have hsplit' : splitKeepNl ('\n' :: tail) = ['\n'] :: splitKeepNl tail := by
      rw [splitKeepNl, if_pos rfl]
    rw [show crlfStream [] tail = '\r' :: '\n' :: tail from rfl,
      show lfStream [] tail = '\n' :: tail from rfl, hsplit, hsplit',
      readHeaderLines_blank _ _ _ (by decide), readHeaderLines_blank _ _ _ (by decide)]
  | cons h hs ih =>
    intro tail acc hws
    obtain ⟨hnl, hne⟩ := hws h (List.mem_cons_self _ _)
    have hws' : ∀ x ∈ hs, '\n' ∉ x ∧ trimChars x ≠ [] :=
      fun x hx => hws x (List.mem_cons_of_mem _ hx)
    have hcrlf : crlfStream (h :: hs) tail = (h ++ ['\r']) ++ '\n' :: crlfStream hs tail := by
      simp [crlfStream, List.append_assoc]
    have hlf : lfStream (h :: hs) tail = h ++ '\n' :: lfStream hs tail := by
      simp [lfStream, List.append_assoc]
    have hnl' : ('\n' : Char) ∉ h ++ ['\r'] := by
      intro hx
      rcases List.mem_append.mp hx with hx | hx
      · exact hnl hx
      · revert hx
        decide
    have htrim1 : trimChars ((h ++ ['\r']) ++ ['\n']) = trimChars h := by
      rw [trimChars_append_ws _ _ (by decide), trimChars_append_ws _ _ (by decide)]
    have htrim2 : trimChars (h ++ ['\n']) = trimChars h := by
      rw [trimChars_append_ws _ _ (by decide)]
    rw [hcrlf, hlf, splitKeepNl_append_nl _ _ hnl', splitKeepNl_append_nl _ _ hnl]
    by_cases hcl : isCLHeader (trimChars h) = true
    · cases hp : parseNat (trimChars (clValue (trimChars h))) with
      | some n =>
        rw [readHeaderLines_cl _ _ _ n (by rw [htrim1]; exact hne)
            (by rw [htrim1]; exact hcl) (by rw [htrim1]; exact hp),
          readHeaderLines_cl _ _ _ n (by rw [htrim2]; exact hne)
            (by rw [htrim2]; exact hcl) (by rw [htrim2]; exact hp)]
        exact ih tail (some n) hws'
      | none =>
        rw [readHeaderLines_cl_bad _ _ _ (by rw [htrim1]; exact hne)
            (by rw [htrim1]; exact hcl) (by rw [htrim1]; exact hp),
          readHeaderLines_cl_bad _ _ _ (by rw [htrim2]; exact hne)
            (by rw [htrim2]; exact hcl) (by rw [htrim2]; exact hp)]
    · have hclf : isCLHeader (trimChars h) = false := by
        cases hb : isCLHeader (trimChars h)
        · rfl
        · exact absurd hb hcl
      rw [readHeaderLines_other _ _ _ (by rw [htrim1]; exact hne) (by rw [htrim1]; exact hclf),
        readHeaderLines_other _ _ _ (by rw [htrim2]; exact hne) (by rw [htrim2]; exact hclf)]
      exact ih tail acc hws'

/-- The `\r\n` and `\n` framed forms of one response parse to the same
result. -/
theorem read_lsp_response_crlf_lf (headers : List (List Char)) (tail : List Char)
    (hws : ∀ h ∈ headers, '\n' ∉ h ∧ trimChars h ≠ []) :
    read_lsp_response (crlfStream headers tail)
      = read_lsp_response (lfStream headers tail) := by
  rw [read_lsp_response, read_lsp_response, readHeaderLines_crlf_lf headers tail none hws]

/-- The header loop can only fail on an unparsable `Content-Length`
value. -/
theorem readHeaderLines_error :
    ∀ (L : List (List Char)) (acc : Option Nat) (e : LspReadError),
      readHeaderLines L acc = .error e → e = .badLengthValue := by
  intro L
  induction L with
  | nil =>
    intro acc e h
    rw [readHeaderLines] at h
    exact absurd h (by simp)
  | cons l L ih =>
    intro acc e h
    by_cases ht : trimChars l = []
    · rw [readHeaderLines_blank _ _ _ ht] at h
      exact absurd h (by simp)
    · by_cases hcl : isCLHeader (trimChars l) = true
      · cases hp : parseNat (trimChars (clValue (trimChars l))) with
        | some n =>
          rw [readHeaderLines_cl _ _ _ n ht hcl hp] at h
          exact ih _ _ h
        | none =>
          rw [readHeaderLines_cl_bad _ _ _ ht hcl hp] at h
          injection h with h
          exact h.symm
      · have hclf : isCLHeader (trimChars l) = false := by
          cases hb : isCLHeader (trimChars l)
          · rfl
          · exact absurd hb hcl
        rw [readHeaderLines_other _ _ _ ht hclf] at h
        exact ih _ _ h

/-- The header loop ends without a remembered `Content-Length` exactly
when it started without one and no header line of the section is a
`Content-Length` line. -/
theorem readHeaderLines_none_iff :
    ∀ (L : List (List Char)) (acc : Option Nat),
      (∃ r, readHeaderLines L acc = .ok (none, r)) ↔
        (acc = none ∧ ∀ l ∈ headerSection L, isCLHeader l = false) := by
  intro L
  induction L with
  | nil =>
    intro acc
    rw [readHeaderLines, headerSection]
    constructor
    · rintro ⟨r, hr⟩
      simp only [Except.ok.injEq, Prod.mk.injEq] at hr
      exact ⟨hr.1, by intro l hl; exact absurd hl (List.not_mem_nil _)⟩
    · rintro ⟨rfl, _⟩
      exact ⟨[], rfl⟩
  | cons l L ih =>
    intro acc
    by_cases ht : trimChars l = []
    · rw [readHeaderLines_blank _ _ _ ht,
        show headerSection (l :: L) = [] from by rw [headerSection]; simp [ht]]
      constructor
      · rintro ⟨r, hr⟩
        simp only [Except.ok.injEq, Prod.mk.injEq] at hr
        exact ⟨hr.1, by intro x hx; exact absurd hx (List.not_mem_nil _)⟩
      · rintro ⟨rfl, _⟩
        exact ⟨L, rfl⟩
    · have hsec : headerSection (l :: L) = trimChars l :: headerSection L := by
        rw [headerSection]
        simp [ht]
      by_cases hcl : isCLHeader (trimChars l) = true
      · cases hp : parseNat (trimChars (clValue (trimChars l))) with
        | some n =>
          rw [readHeaderLines_cl _ _ _ n ht hcl hp, hsec]
          constructor
          · intro hex
            obtain ⟨hnone, _⟩ := (ih (some n)).mp hex
            exact absurd hnone (by simp)
          · rintro ⟨_, hall⟩
            exact absurd (hall _ (List.mem_cons_self _ _)) (by rw [hcl]; simp)
        | none =>
          rw [readHeaderLines_cl_bad _ _ _ ht hcl hp, hsec]
          constructor
          · rintro ⟨r, hr⟩
            exact absurd hr (by simp)
          · rintro ⟨_, hall⟩
            exact absurd (hall _ (List.mem_cons_self _ _)) (by rw [hcl]; simp)
      · have hclf : isCLHeader (trimChars l) = false := by
          cases hb : isCLHeader (trimChars l)
          · rfl
          · exact absurd hb hcl
        rw [readHeaderLines_other _ _ _ ht hclf, hsec, ih acc]
        simp [hclf]

/-- C5 part (c): `read_lsp_response` fails with the missing
`Content-Length` error exactly when no line of the header section is a
`Content-Length` line. -/
theorem read_lsp_response_noCL_iff (s : List Char) :
    read_lsp_response s = .error .noContentLength ↔
      ∀ l ∈ headerSection (splitKeepNl s), isCLHeader l = false := by
  constructor
  · intro h
    rw [read_lsp_response] at h
    match hr : readHeaderLines (splitKeepNl s) none with
    | .error e =>
      rw [hr] at h
      dsimp only at h
      injection h with he
      have := readHeaderLines_error _ _ _ hr
      rw [he] at this
      exact absurd this (by simp)
    | .ok (none, r) =>
      exact ((readHeaderLines_none_iff (splitKeepNl s) none).mp ⟨r, hr⟩).2
    | .ok (some n, r) =>
      rw [hr] at h
      dsimp only at h
      match he : readExact r.flatten n with
      | none =>
        rw [he] at h
        injection h with h
        exact absurd h (by simp)
      | some p =>
        rw [he] at h
        exact absurd h (by simp)
  · intro hall
    obtain ⟨r, hr⟩ := (readHeaderLines_none_iff (splitKeepNl s) none).mpr ⟨rfl, hall⟩
    rw [read_lsp_response, hr]

/-- C5: transport framing round-trips — `receive` after `send` on a
loopback stream recovers exactly the sent body (hence a value
structurally equal to the sent message, the body bytes being equal; the
JSON codec itself is the external serde library); a response whose
header lines end in `\r\n` and one whose header lines end in `\n`
parse to the same result; and `receive` fails with the
missing-`Content-Length` protocol error exactly when no line of the
header section (before the blank terminating line) is a
`Content-Length` line. -/
theorem c5_transport_framing :
    (∀ (body : String) (rest : List Char),
        read_lsp_response (send_lsp_request body ++ rest) = .ok (body, rest))
    ∧ (∀ (headers : List (List Char)) (tail : List Char),
        (∀ h ∈ headers, '\n' ∉ h ∧ trimChars h ≠ []) →
        read_lsp_response (crlfStream headers tail)
          = read_lsp_response (lfStream headers tail))
    ∧ (∀ s : List Char,
        read_lsp_response s = .error .noContentLength ↔
          ∀ l ∈ headerSection (splitKeepNl s), isCLHeader l = false) :=
  ⟨read_lsp_response_round, read_lsp_response_crlf_lf, read_lsp_response_noCL_iff⟩

/-- C5 witness: the round trip for the body `null`, the `\r\n`/`\n`
agreement for one ordinary header line, and the error characterization
on a header section without a `Content-Length` line. -/
theorem c5_witness :
    read_lsp_response (send_lsp_request "null" ++ []) = .ok ("null", [])
    ∧ read_lsp_response (crlfStream ["X-Header: 1".data] "BODY".data)
        = read_lsp_response (lfStream ["X-Header: 1".data] "BODY".data)
    ∧ (read_lsp_response "A: 1\n\nBODY".data = .error .noContentLength ↔
        ∀ l ∈ headerSection (splitKeepNl "A: 1\n\nBODY".data), isCLHeader l = false) :=
  ⟨c5_transport_framing.1 "null" [],
   c5_transport_framing.2.1 ["X-Header: 1".data] "BODY".data (by decide),
   c5_transport_framing.2.2 "A: 1\n\nBODY".data⟩

end Chunking
